import Mathlib

/-!
# Verification of `tools/audiosink.py` (class `AudioSink`)

Shallow embedding of the audio mixing engine of the repository.

Modelling choices:
* Python `int` values and 16-bit PCM samples are `Int`; numpy's int16
  wraparound is explicit (`wrap16`).
* Python `float` values are IEEE-754 binary64 numbers; the exact value of a
  binary64 number is a rational, and every arithmetic operation rounds its
  exact rational result to the nearest binary64 value (ties to even).
  `roundD` performs that rounding on rationals (normal range only; all values
  arising here are far from overflow/underflow).
* `defaultdict(list)` keyed by owner is an insertion-ordered association list
  (`StreamTable`); `qappend` models `self._queue[owner].append(data)`,
  `qerase`/`hasKey` model `del self._queue[owner]`.
* Exceptions are explicit: `PyErr` values; `remove` returns `Except`,
  `volumeSet` returns the raised error (if any) together with the state as
  left by the method (the `assert` fires before any mutation).
* The PyAudio callback `_worker` is the pure function `worker`; its `none`
  result models the `ValueError` raised by `np.stack` on an empty chunk list
  (unreachable from well-formed states).
-/

set_option maxRecDepth 40000

/-! ## IEEE-754 binary64 rounding on rationals -/

/-- `2^e` as a rational, for an integer exponent. -/
def pow2 (e : ℤ) : ℚ :=
  if 0 ≤ e then ((2 ^ e.toNat : ℕ) : ℚ) else 1 / ((2 ^ (-e).toNat : ℕ) : ℚ)

/-- Round a rational to an integer, half to even. -/
def rhe (x : ℚ) : ℤ :=
  let f := ⌊x⌋
  let r := x - f
  if r < 1/2 then f
  else if 1/2 < r then f + 1
  else if f % 2 = 0 then f else f + 1

/-- Base-2 logarithm of a natural number (`ilog2 fuel n = Nat.log2 n` whenever
`n ≤ fuel`), written with structural fuel recursion. -/
def ilog2 (fuel n : ℕ) : ℕ :=
  match fuel with
  | 0 => 0
  | fuel + 1 => if 2 ≤ n then ilog2 fuel (n / 2) + 1 else 0

/-- For `q > 0`: the exponent `e` with `2^e ≤ q < 2^(e+1)`. -/
def floorLog2 (q : ℚ) : ℤ :=
  if 1 ≤ q then (ilog2 ⌊q⌋.toNat ⌊q⌋.toNat : ℤ)
  else
    let k := ilog2 ⌊1/q⌋.toNat ⌊1/q⌋.toNat
    if q = pow2 (-(k : ℤ)) then -(k : ℤ) else -(k : ℤ) - 1

/-- Nearest binary64 value of a positive rational (53-bit mantissa). -/
def roundDpos (q : ℚ) : ℚ :=
  let e := floorLog2 q
  let s := pow2 (52 - e)
  ((rhe (q * s) : ℤ) : ℚ) / s

/-- Nearest binary64 value of a rational: the exact result of a Python
float operation whose exact rational value is `q` (normal range). -/
def roundD (q : ℚ) : ℚ :=
  if q < 0 then -(roundDpos (-q)) else if q = 0 then 0 else roundDpos q

/-! ## Data model -/

/-- Owner identities: `None` or a user id (`owner` argument of `add`). -/
abbrev OwnerId := Option ℤ

/-- A decoded clip: a sequence of signed 16-bit samples. -/
abbrev SampleBuffer := List ℤ

/-- `self._queue`: a `defaultdict(list)` mapping owners to their pending
buffers, modelled as an insertion-ordered association list. -/
abbrev StreamTable := List (OwnerId × List SampleBuffer)

/-- Python exceptions relevant to `audiosink.py`. -/
inductive PyErr where
  | keyError
  | indexError
  | valueError
  | assertionError
  deriving DecidableEq, Repr

/-- PyAudio stream callback flags. -/
inductive Sig where
  | paContinue
  | paComplete
  deriving DecidableEq, Repr

/-- `AudioSink.DEFAULT_SAMPLE_RATE`. -/
def DEFAULT_SAMPLE_RATE : ℕ := 16000

/-- The mutable state of an `AudioSink` instance: the queue, the stored gain
`_volume` (a Python float, held as its exact rational value) and the
`_stream` handle (`none` = no stream, `some b` = open stream whose
`is_active()` returns `b`; activity is flipped by the device, not by us). -/
structure AudioSink where
  queue : StreamTable
  _volume : ℚ
  stream : Option Bool
  deriving DecidableEq, Repr

/-! ## Association-list operations on the queue -/

/-- Dictionary lookup: `self._queue[owner]` (read-only, no default insertion). -/
def qlookup (o : OwnerId) : StreamTable → Option (List SampleBuffer)
  | [] => none
  | p :: rest => if p.1 = o then some p.2 else qlookup o rest

/-- `self._queue[owner].append(b)` on a `defaultdict(list)`: append to the
existing entry, or create the entry (at the end of the dict order). -/
def qappend (o : OwnerId) (b : SampleBuffer) : StreamTable → StreamTable
  | [] => [(o, [b])]
  | p :: rest => if p.1 = o then (p.1, p.2 ++ [b]) :: rest else p :: qappend o b rest

/-- `del self._queue[owner]` for a present key. -/
def qerase (o : OwnerId) : StreamTable → StreamTable
  | [] => []
  | p :: rest => if p.1 = o then rest else p :: qerase o rest

/-- `owner in self._queue`. -/
def hasKey (o : OwnerId) (q : StreamTable) : Bool :=
  (qlookup o q).isSome

/-! ## The engine operations -/

/-- `AudioSink.add(sound, owner=None)`, after `wavfile.read` has produced
`(rate, data)`.  `re` is the external `resample` collaborator; `none` models
the `ValueError` it raises on degenerate input, which `add` swallows by
returning early.  On success the buffer is appended under `owner` and a
stream is (re)opened if none is active. -/
def add (re : SampleBuffer → ℕ → Option SampleBuffer) (rate : ℕ)
    (data : SampleBuffer) (s : AudioSink) (owner : OwnerId := none) : AudioSink :=
  let d? : Option SampleBuffer :=
    if rate ≠ DEFAULT_SAMPLE_RATE then re data rate else some data
  match d? with
  | none => s
  | some d =>
    let s1 : AudioSink := { s with queue := qappend owner d s.queue }
    let s2 : AudioSink := if s1.stream = some false then { s1 with stream := none } else s1
    if s2.stream = none then { s2 with stream := some true } else s2

/-- `AudioSink.remove(owner)`: `try: del self._queue[owner] except IndexError:
pass`.  A missing key makes `del` raise `KeyError`, which the handler (written
for `IndexError`) does not catch. -/
def remove (o : OwnerId) (s : AudioSink) : Except PyErr AudioSink :=
  let del : Except PyErr StreamTable :=
    if hasKey o s.queue then .ok (qerase o s.queue) else .error .keyError
  match del with
  | .ok q => .ok { s with queue := q }
  | .error .indexError => .ok s
  | .error e => .error e

/-- The `volume` property getter: `return 100 * self._volume` (binary64). -/
def volumeGet (s : AudioSink) : ℚ :=
  roundD (100 * s._volume)

/-- The `volume` property setter: `assert 0 <= value <= 100` then
`self._volume = value / 100` (binary64 division).  Returns the raised error,
if any, together with the state as the method leaves it (the assert fires
before the assignment). -/
def volumeSet (value : ℤ) (s : AudioSink) : Option PyErr × AudioSink :=
  if 0 ≤ value ∧ value ≤ 100 then
    (none, { s with _volume := roundD ((value : ℚ) / 100) })
  else
    (some .assertionError, s)

/-! ## The pull callback `_worker` -/

/-- Wrap an integer into int16 (numpy int16 arithmetic / `astype` wraparound). -/
def wrap16 (z : ℤ) : ℤ :=
  (z + 32768) % 65536 - 32768

/-- Truncation of a rational toward zero (C-style float→int cast). -/
def qtrunc (x : ℚ) : ℤ :=
  if 0 ≤ x.num then ((x.num.toNat / x.den : ℕ) : ℤ)
  else -(((-x.num).toNat / x.den : ℕ) : ℤ)

/-- numpy cast of a binary64 value to int16: truncate, then wrap. -/
def i16cast (x : ℚ) : ℤ :=
  wrap16 (qtrunc x)

/-- The chunk contributed by one queued sound: `sound[:frame_count]` after the
`np.pad` of the `length <= frame_count` branch. -/
def chunkOf (F : ℕ) (sound : SampleBuffer) : SampleBuffer :=
  (if sound.length ≤ F then sound ++ List.replicate (F - sound.length) 0 else sound).take F

/-- One iteration of `for sound in sounds`: leftovers of a long sound go to
`new_queue[owner]`, and the sound's first `F` samples join `chunks`. -/
def soundStep (F : ℕ) (o : OwnerId) (acc : List SampleBuffer × StreamTable)
    (sound : SampleBuffer) : List SampleBuffer × StreamTable :=
  let nq := if sound.length ≤ F then acc.2 else qappend o (sound.drop F) acc.2
  (acc.1 ++ [chunkOf F sound], nq)

/-- One iteration of `for owner, sounds in self._queue.items()`. -/
def entryStep (F : ℕ) (acc : List SampleBuffer × StreamTable)
    (p : OwnerId × List SampleBuffer) : List SampleBuffer × StreamTable :=
  p.2.foldl (soundStep F p.1) acc

/-- The full queue traversal of `_worker`: the captured chunks and the rebuilt
`new_queue`. -/
def collect (q : StreamTable) (F : ℕ) : List SampleBuffer × StreamTable :=
  q.foldl (entryStep F) ([], [])

/-- Sample `j` of the mixed frame:
`np.sum((np.stack(chunks) // len(chunks)) * self._volume, axis=0, dtype=np.int16)`.
Each element is floor-divided by the chunk count, multiplied by the gain
(binary64 product), cast to int16, and accumulated with int16 wraparound. -/
def mixSample (chunks : List SampleBuffer) (n : ℕ) (vol : ℚ) (j : ℕ) : ℤ :=
  chunks.foldl
    (fun acc c => wrap16 (acc + i16cast (roundD ((((c.getD j 0).fdiv (n : ℤ) : ℤ) : ℚ) * vol))))
    0

/-- `AudioSink._worker(in_data, frame_count, ...)`: returns the frame (as its
list of samples), the callback flag, and the updated state.  `none` models
the `ValueError` that `np.stack` raises when no chunk was captured
(impossible for well-formed queues). -/
def worker (s : AudioSink) (F : ℕ) : Option (List ℤ × Sig × AudioSink) :=
  if s.queue = [] then some ([], .paComplete, s)
  else
    let c := collect s.queue F
    if c.1.length = 0 then none
    else
      some ((List.range F).map (mixSample c.1 c.1.length s._volume),
        .paContinue, { s with queue := c.2 })

/-! ## Specification-side definitions (used to state the claims) -/

/-- Clamping into the signed 16-bit range (what the spec asserts the mixer
does to out-of-range results). -/
def clamp16 (z : ℤ) : ℤ :=
  if z < -32768 then -32768 else if 32767 < z then 32767 else z

/-- All queued sounds, in the iteration order of `_worker`. -/
def allSounds (q : StreamTable) : List SampleBuffer :=
  q.foldr (fun p acc => p.2 ++ acc) []

/-- What remains of a buffer list after one callback at frame count `F`:
the tails of the buffers longer than `F`, in order. -/
def remAfter (F : ℕ) : List SampleBuffer → List SampleBuffer
  | [] => []
  | b :: bs => if b.length ≤ F then remAfter F bs else b.drop F :: remAfter F bs

/-- The `new_queue` effect of one sound (the queue half of `soundStep`). -/
def nqStep (F : ℕ) (o : OwnerId) (nq : StreamTable) (sound : SampleBuffer) : StreamTable :=
  if sound.length ≤ F then nq else qappend o (sound.drop F) nq

/-- The `new_queue` effect of one owner's entry. -/
def nqEntry (F : ℕ) (nq : StreamTable) (p : OwnerId × List SampleBuffer) : StreamTable :=
  p.2.foldl (nqStep F p.1) nq

/-- The rebuilt `new_queue` of one callback, in isolation. -/
def nqOfQueue (F : ℕ) (q : StreamTable) : StreamTable :=
  q.foldl (nqEntry F) []

/-- Well-formedness of the queue: every present owner maps to a non-empty
sequence of buffers. -/
def WF (q : StreamTable) : Prop :=
  ∀ p ∈ q, p.2 ≠ ([] : List SampleBuffer)

/-- Keys of the table are pairwise distinct (true of any Python dict). -/
def NodupKeys (q : StreamTable) : Prop :=
  (q.map Prod.fst).Nodup

/-- A fresh sink at 100% volume (as built by `__init__(volume=100)`),
with no open stream. -/
def initSink : AudioSink :=
  ⟨[], 1, none⟩

/-! ## Basic lemmas about the callback's queue traversal -/

/-- Every captured chunk has length exactly `F`. -/
theorem chunkOf_length (F : ℕ) (s : SampleBuffer) : (chunkOf F s).length = F := by
  unfold chunkOf
  split
  · next h => simp only [List.length_take, List.length_append, List.length_replicate]; omega
  · next h => simp only [List.length_take]; omega

/-- The chunk half of the inner fold of `_worker`. -/
theorem soundsFold_fst (F : ℕ) (o : OwnerId) (sounds : List SampleBuffer) :
    ∀ acc : List SampleBuffer × StreamTable,
      (sounds.foldl (soundStep F o) acc).1 = acc.1 ++ sounds.map (chunkOf F) := by
  induction sounds with
  | nil => intro acc; simp
  | cons s ss ih =>
    intro acc
    simp only [List.foldl_cons, List.map_cons, ih, soundStep, List.append_assoc,
      List.singleton_append]

/-- The queue half of the inner fold of `_worker`. -/
theorem soundsFold_snd (F : ℕ) (o : OwnerId) (sounds : List SampleBuffer) :
    ∀ acc : List SampleBuffer × StreamTable,
      (sounds.foldl (soundStep F o) acc).2 = sounds.foldl (nqStep F o) acc.2 := by
  induction sounds with
  | nil => intro acc; simp
  | cons s ss ih =>
    intro acc
    simp only [List.foldl_cons, ih, soundStep, nqStep]

/-- The chunk half of the full traversal. -/
theorem entriesFold_fst (F : ℕ) (q : StreamTable) :
    ∀ acc : List SampleBuffer × StreamTable,
      (q.foldl (entryStep F) acc).1 = acc.1 ++ (allSounds q).map (chunkOf F) := by
  induction q with
  | nil => intro acc; simp [allSounds]
  | cons p rest ih =>
    intro acc
    simp only [List.foldl_cons, ih, entryStep, soundsFold_fst, allSounds, List.foldr_cons,
      List.map_append, List.append_assoc]

/-- The chunks captured by `_worker` are the `F`-chunks of all queued sounds,
in queue iteration order. -/
theorem collect_fst (q : StreamTable) (F : ℕ) :
    (collect q F).1 = (allSounds q).map (chunkOf F) := by
  simpa using entriesFold_fst F q ([], [])

/-- The queue half of the full traversal. -/
theorem entriesFold_snd (F : ℕ) (q : StreamTable) :
    ∀ acc : List SampleBuffer × StreamTable,
      (q.foldl (entryStep F) acc).2 = q.foldl (nqEntry F) acc.2 := by
  induction q with
  | nil => intro acc; simp
  | cons p rest ih =>
    intro acc
    simp only [List.foldl_cons, ih, entryStep, nqEntry, soundsFold_snd]

/-- The rebuilt queue of `_worker` is `nqOfQueue`. -/
theorem collect_snd (q : StreamTable) (F : ℕ) : (collect q F).2 = nqOfQueue F q := by
  simpa [nqOfQueue] using entriesFold_snd F q ([], [])

/-! ## Lemmas about the association-list operations -/

theorem qlookup_qappend_self (o : OwnerId) (b : SampleBuffer) (q : StreamTable) :
    qlookup o (qappend o b q) = some ((qlookup o q).getD [] ++ [b]) := by
  induction q with
  | nil => simp [qappend, qlookup]
  | cons p rest ih =>
    by_cases h : p.1 = o
    · simp [qappend, qlookup, h]
    · simp [qappend, qlookup, h, ih]

theorem qlookup_qappend_ne (o o' : OwnerId) (b : SampleBuffer) (q : StreamTable)
    (h : o' ≠ o) : qlookup o (qappend o' b q) = qlookup o q := by
  induction q with
  | nil => simp [qappend, qlookup, h]
  | cons p rest ih =>
    by_cases hp : p.1 = o'
    · simp [qappend, qlookup, hp, h, h.symm]
    · by_cases ho : p.1 = o
      · simp [qappend, qlookup, hp, ho, h, h.symm]
      · simp [qappend, qlookup, hp, ho, ih]

theorem qlookup_mem (o : OwnerId) (bufs : List SampleBuffer) (q : StreamTable)
    (h : qlookup o q = some bufs) : (o, bufs) ∈ q := by
  induction q with
  | nil => simp [qlookup] at h
  | cons p rest ih =>
    by_cases hp : p.1 = o
    · simp only [qlookup, hp, if_pos] at h
      obtain rfl : p.2 = bufs := by simpa using h
      exact (show p = (o, p.2) by rw [← hp]) ▸ List.mem_cons_self p rest
    · simp only [qlookup, hp, if_neg, if_false] at h
      exact List.mem_cons_of_mem p (ih h)

/-- Folding an owner's own sounds into `new_queue` appends exactly the
tails of its long sounds. -/
theorem qlookup_nqFold_self (F : ℕ) (o : OwnerId) (sounds : List SampleBuffer) :
    ∀ nq : StreamTable,
      qlookup o (sounds.foldl (nqStep F o) nq) =
        (if remAfter F sounds = [] then qlookup o nq
         else some ((qlookup o nq).getD [] ++ remAfter F sounds)) := by
  induction sounds with
  | nil => intro nq; simp [remAfter]
  | cons s ss ih =>
    intro nq
    by_cases h : s.length ≤ F
    · simp only [List.foldl_cons, nqStep, h, if_pos, remAfter, ih]
    · simp only [List.foldl_cons, nqStep, h, if_neg, if_false, remAfter, ih,
        qlookup_qappend_self]
      cases hrem : remAfter F ss with
      | nil => simp
      | cons r rs => simp [List.append_assoc]

/-- Folding another owner's sounds into `new_queue` does not touch `o`. -/
theorem qlookup_nqFold_ne (F : ℕ) (o o' : OwnerId) (h : o' ≠ o)
    (sounds : List SampleBuffer) :
    ∀ nq : StreamTable, qlookup o (sounds.foldl (nqStep F o') nq) = qlookup o nq := by
  induction sounds with
  | nil => intro nq; simp
  | cons s ss ih =>
    intro nq
    by_cases hs : s.length ≤ F
    · simp only [List.foldl_cons, nqStep, hs, if_pos, ih]
    · simp only [List.foldl_cons, nqStep, hs, if_neg, if_false, ih,
        qlookup_qappend_ne o o' _ _ h]

/-- Folding entries of owners other than `o` does not touch `o`. -/
theorem qlookup_entriesFold_notmem (F : ℕ) (o : OwnerId) (es : StreamTable) :
    ∀ nq : StreamTable, o ∉ es.map Prod.fst →
      qlookup o (es.foldl (nqEntry F) nq) = qlookup o nq := by
  induction es with
  | nil => intro nq _; simp
  | cons p rest ih =>
    intro nq hmem
    simp only [List.map_cons, List.mem_cons, not_or] at hmem
    simp only [List.foldl_cons]
    rw [ih _ hmem.2, nqEntry, qlookup_nqFold_ne F o p.1 (fun e => hmem.1 e.symm)]

/-- Main characterization: the entry of owner `o` in the rebuilt queue. -/
theorem qlookup_entriesFold (F : ℕ) (o : OwnerId) (bufs : List SampleBuffer)
    (q : StreamTable) :
    ∀ nq : StreamTable, NodupKeys q → qlookup o q = some bufs → qlookup o nq = none →
      qlookup o (q.foldl (nqEntry F) nq) =
        (if remAfter F bufs = [] then none else some (remAfter F bufs)) := by
  induction q with
  | nil => intro nq _ hlk _; simp [qlookup] at hlk
  | cons p rest ih =>
    intro nq hnd hlk hnone
    have hnd' : p.1 ∉ rest.map Prod.fst ∧ NodupKeys rest := by
      simpa [NodupKeys, List.nodup_cons] using hnd
    by_cases h : p.1 = o
    · have hbufs : p.2 = bufs := by simpa [qlookup, h] using hlk
      have hnotm : o ∉ rest.map Prod.fst := h ▸ hnd'.1
      rw [List.foldl_cons, qlookup_entriesFold_notmem F o rest _ hnotm, nqEntry, h,
        qlookup_nqFold_self, hnone, hbufs]
      simp
    · have hlk' : qlookup o rest = some bufs := by simpa [qlookup, h] using hlk
      have hnone' : qlookup o (nqEntry F nq p) = none := by
        rw [nqEntry, qlookup_nqFold_ne F o p.1 h]; exact hnone
      rw [List.foldl_cons]
      exact ih _ hnd'.2 hlk' hnone'

/-- The entry of owner `o` in the queue rebuilt by one callback. -/
theorem qlookup_nqOfQueue (F : ℕ) (o : OwnerId) (bufs : List SampleBuffer)
    (q : StreamTable) (hnd : NodupKeys q) (hlk : qlookup o q = some bufs) :
    qlookup o (nqOfQueue F q) =
      (if remAfter F bufs = [] then none else some (remAfter F bufs)) :=
  qlookup_entriesFold F o bufs q [] hnd hlk rfl

/-! ## Well-formedness and key lemmas -/

theorem WF_nil : WF ([] : StreamTable) := by
  intro p hp; cases hp

theorem WF_qappend (o : OwnerId) (b : SampleBuffer) (q : StreamTable) (h : WF q) :
    WF (qappend o b q) := by
  induction q with
  | nil => intro p hp; simp only [qappend, List.mem_singleton] at hp; subst hp; simp
  | cons r rest ih =>
    have hr := h r (List.mem_cons_self r rest)
    have hrest : WF rest := fun p hp => h p (List.mem_cons_of_mem r hp)
    by_cases hk : r.1 = o
    · intro p hp
      simp only [qappend, hk, if_pos, List.mem_cons] at hp
      rcases hp with rfl | hp
      · simp
      · exact hrest p hp
    · intro p hp
      simp only [qappend, hk, if_neg, if_false, List.mem_cons] at hp
      rcases hp with rfl | hp
      · exact hr
      · exact ih hrest p hp

theorem WF_qerase (o : OwnerId) (q : StreamTable) (h : WF q) : WF (qerase o q) := by
  induction q with
  | nil => intro p hp; cases hp
  | cons r rest ih =>
    have hr := h r (List.mem_cons_self r rest)
    have hrest : WF rest := fun p hp => h p (List.mem_cons_of_mem r hp)
    by_cases hk : r.1 = o
    · intro p hp
      simp only [qerase, hk, if_pos] at hp
      exact hrest p hp
    · intro p hp
      simp only [qerase, hk, if_neg, if_false, List.mem_cons] at hp
      rcases hp with rfl | hp
      · exact hr
      · exact ih hrest p hp

theorem WF_nqFold (F : ℕ) (o : OwnerId) (sounds : List SampleBuffer) :
    ∀ nq : StreamTable, WF nq → WF (sounds.foldl (nqStep F o) nq) := by
  induction sounds with
  | nil => intro nq h; exact h
  | cons s ss ih =>
    intro nq h
    by_cases hs : s.length ≤ F
    · simpa only [List.foldl_cons, nqStep, hs, if_pos] using ih nq h
    · simpa only [List.foldl_cons, nqStep, hs, if_neg, if_false] using
        ih _ (WF_qappend o (s.drop F) nq h)

theorem WF_entriesFold (F : ℕ) (es : StreamTable) :
    ∀ nq : StreamTable, WF nq → WF (es.foldl (nqEntry F) nq) := by
  induction es with
  | nil => intro nq h; exact h
  | cons p rest ih =>
    intro nq h
    simpa only [List.foldl_cons] using ih _ (WF_nqFold F p.1 p.2 nq h)

/-- The rebuilt queue of a callback is always well-formed: long sounds leave
non-empty tails, owners with nothing left are simply never re-inserted. -/
theorem WF_nqOfQueue (F : ℕ) (q : StreamTable) : WF (nqOfQueue F q) :=
  WF_entriesFold F q [] WF_nil

theorem mem_keys_qappend (o : OwnerId) (b : SampleBuffer) (q : StreamTable) (x : OwnerId) :
    x ∈ (qappend o b q).map Prod.fst → x ∈ q.map Prod.fst ∨ x = o := by
  induction q with
  | nil => intro h; simpa [qappend] using h
  | cons p rest ih =>
    intro h
    by_cases hk : p.1 = o
    · simp only [qappend, hk, if_pos, List.map_cons, List.mem_cons] at h ⊢
      tauto
    · simp only [qappend, hk, if_neg, if_false, List.map_cons, List.mem_cons] at h ⊢
      rcases h with h | h
      · exact Or.inl (Or.inl h)
      · rcases ih h with h' | h'
        · exact Or.inl (Or.inr h')
        · exact Or.inr h'

theorem NodupKeys_qappend (o : OwnerId) (b : SampleBuffer) (q : StreamTable)
    (h : NodupKeys q) : NodupKeys (qappend o b q) := by
  induction q with
  | nil => simp [qappend, NodupKeys]
  | cons p rest ih =>
    have h' : p.1 ∉ rest.map Prod.fst ∧ NodupKeys rest := by
      simpa [NodupKeys, List.nodup_cons] using h
    by_cases hk : p.1 = o
    · simpa [qappend, hk, NodupKeys, List.nodup_cons] using h'
    · have hmem : p.1 ∉ (qappend o b rest).map Prod.fst := by
        intro hx
        rcases mem_keys_qappend o b rest p.1 hx with hin | rfl
        · exact h'.1 hin
        · exact hk rfl
      simp only [qappend, hk, if_neg, if_false, NodupKeys, List.map_cons, List.nodup_cons]
      exact ⟨hmem, ih h'.2⟩

theorem qlookup_eq_none_of_notmem (o : OwnerId) (q : StreamTable) :
    o ∉ q.map Prod.fst → qlookup o q = none := by
  induction q with
  | nil => intro _; simp [qlookup]
  | cons p rest ih =>
    intro h
    simp only [List.map_cons, List.mem_cons, not_or] at h
    have hne : p.1 ≠ o := fun e => h.1 e.symm
    simp only [qlookup, hne, if_neg, if_false]
    exact ih h.2

theorem qlookup_qerase_self (o : OwnerId) (q : StreamTable) (h : NodupKeys q) :
    qlookup o (qerase o q) = none := by
  induction q with
  | nil => simp [qerase, qlookup]
  | cons p rest ih =>
    have h' : p.1 ∉ rest.map Prod.fst ∧ NodupKeys rest := by
      simpa [NodupKeys, List.nodup_cons] using h
    by_cases hk : p.1 = o
    · simp only [qerase, hk, if_pos]
      exact qlookup_eq_none_of_notmem o rest (hk ▸ h'.1)
    · simp only [qerase, hk, if_neg, if_false, qlookup]
      exact ih h'.2

theorem qlookup_qerase_ne (o o' : OwnerId) (q : StreamTable) (h : o' ≠ o) :
    qlookup o' (qerase o q) = qlookup o' q := by
  induction q with
  | nil => simp [qerase]
  | cons p rest ih =>
    by_cases hk : p.1 = o
    · simp [qerase, hk, qlookup, h, h.symm]
    · by_cases hp : p.1 = o'
      · simp [qerase, hk, qlookup, hp, h, h.symm]
      · simp [qerase, hk, qlookup, hp, ih]

/-! ## Lemmas about the mixed frame -/

theorem allSounds_ne_nil (q : StreamTable) (hq : q ≠ []) (hwf : WF q) :
    allSounds q ≠ [] := by
  cases q with
  | nil => exact absurd rfl hq
  | cons p rest =>
    have hp := hwf p (List.mem_cons_self p rest)
    simp only [allSounds, List.foldr_cons]
    intro h
    exact hp (List.append_eq_nil.mp h).1

theorem wrap16_wrap_left (a b : ℤ) : wrap16 (wrap16 a + b) = wrap16 (a + b) := by
  unfold wrap16; omega

theorem foldl_wrap16_add (g : SampleBuffer → ℤ) (l : List SampleBuffer) :
    ∀ a : ℤ, l.foldl (fun acc c => wrap16 (acc + g c)) (wrap16 a) =
      wrap16 (a + (l.map g).sum) := by
  induction l with
  | nil => intro a; simp
  | cons x xs ih =>
    intro a
    simp only [List.foldl_cons, List.map_cons, List.sum_cons]
    rw [wrap16_wrap_left, ih (a + g x), add_assoc]

/-- `np.sum(..., dtype=np.int16)` over the scaled chunks: the running int16
accumulation equals the plain integer sum of the cast elements, wrapped once. -/
theorem mixSample_eq (chunks : List SampleBuffer) (n : ℕ) (vol : ℚ) (j : ℕ) :
    mixSample chunks n vol j =
      wrap16 ((chunks.map (fun c =>
        i16cast (roundD ((((c.getD j 0).fdiv (n : ℤ) : ℤ) : ℚ) * vol)))).sum) := by
  have h0 : (0 : ℤ) = wrap16 0 := by decide
  rw [mixSample, h0, foldl_wrap16_add]
  simp

theorem getD_range_map (g : ℕ → ℤ) (F j : ℕ) (hj : j < F) :
    (((List.range F).map g).getD j 0) = g j := by
  rw [List.getD_eq_getElem?_getD, List.getElem?_map, List.getElem?_range hj]
  rfl

/-- `_worker` on a non-empty, well-formed queue: it returns the mixed frame
with the continue flag and the rebuilt queue. -/
theorem worker_some (s : AudioSink) (F : ℕ) (hne : s.queue ≠ []) (hwf : WF s.queue) :
    worker s F = some ((List.range F).map
        (mixSample (collect s.queue F).1 (collect s.queue F).1.length s._volume),
      Sig.paContinue, { s with queue := (collect s.queue F).2 }) := by
  have hchunks : (collect s.queue F).1 = (allSounds s.queue).map (chunkOf F) :=
    collect_fst s.queue F
  have hlen : (collect s.queue F).1.length ≠ 0 := by
    rw [hchunks, List.length_map]
    simpa [List.length_eq_zero] using allSounds_ne_nil s.queue hne hwf
  simp only [worker, hne, if_neg, hlen, if_false]

/-- The queue after a successful `add` at the canonical rate. -/
theorem add_queue (re : SampleBuffer → ℕ → Option SampleBuffer) (data : SampleBuffer)
    (s : AudioSink) (owner : OwnerId) :
    (add re DEFAULT_SAMPLE_RATE data s owner).queue = qappend owner data s.queue := by
  unfold add
  simp only [ne_eq, not_true_eq_false, if_false, reduceCtorEq]
  split <;> split <;> rfl


/-! ## The claims -/

/-- C3: `remove` on an absent owner is NOT a no-op: `del self._queue[owner]`
raises `KeyError`, and the `except IndexError` handler does not catch it.
Evaluated at the failing input: owner `42` absent (fresh sink, empty queue). -/
theorem claim_C3_code_bug :
    qlookup (some 42) initSink.queue = none ∧
    remove (some 42) initSink = Except.error PyErr.keyError :=
  ⟨rfl, rfl⟩

/-- C5 counterexample: `setVolume(7)` succeeds, but the stored gain is the
binary64 value nearest `7/100` (not `7/100` itself), and `getVolume()` then
returns `7.000000000000001` (exactly `7 + 2^(-50)`), not the integer `7`. -/
theorem claim_C5_counterexample :
    (volumeSet 7 initSink).1 = none ∧
    (volumeSet 7 initSink).2._volume ≠ (7 : ℚ) / 100 ∧
    (volumeGet (volumeSet 7 initSink).2 - 7) * 2 ^ 50 = 1 ∧
    volumeGet (volumeSet 7 initSink).2 ≠ (7 : ℚ) :=
  of_decide_eq_true (by with_unfolding_all rfl)

/-- C5 amended: for every integer `p` in `[0, 100]`, `setVolume(p)` succeeds
and stores the binary64 value nearest `p/100`; `getVolume()` then returns a
value within `2^(-45)` of `p` whose nearest integer is `p` (it equals `p` for
all but eight values of `p`; not, e.g., for `p = 7`). -/
theorem claim_C5_amended (p : ℕ) (hp : p ≤ 100) (s : AudioSink) :
    ∃ s', volumeSet (p : ℤ) s = (none, s') ∧
      s'._volume = roundD ((p : ℚ) / 100) ∧
      |volumeGet s' - (p : ℚ)| ≤ 1 / 2 ^ 45 ∧
      ⌊volumeGet s' + 1/2⌋ = (p : ℤ) := by
  have hall : ∀ q : ℕ, q ≤ 100 →
      |roundD (100 * roundD ((q : ℚ) / 100)) - (q : ℚ)| ≤ 1 / 2 ^ 45 ∧
      ⌊roundD (100 * roundD ((q : ℚ) / 100)) + 1/2⌋ = (q : ℤ) :=
    of_decide_eq_true (by with_unfolding_all rfl)
  refine ⟨{ s with _volume := roundD ((p : ℚ) / 100) }, ?_, rfl, ?_, ?_⟩
  · have h0 : (0 : ℤ) ≤ (p : ℤ) := Int.ofNat_nonneg p
    have h1 : (p : ℤ) ≤ 100 := by exact_mod_cast hp
    simp [volumeSet, h0, h1]
  · simpa [volumeGet] using (hall p hp).1
  · simpa [volumeGet] using (hall p hp).2

/-- Witness for C5 amended, at `p = 7` on a fresh sink. -/
theorem claim_C5_witness :
    (7 : ℕ) ≤ 100 ∧
    ∃ s', volumeSet ((7 : ℕ) : ℤ) initSink = (none, s') ∧
      s'._volume = roundD (((7 : ℕ) : ℚ) / 100) ∧
      |volumeGet s' - ((7 : ℕ) : ℚ)| ≤ 1 / 2 ^ 45 ∧
      ⌊volumeGet s' + 1/2⌋ = ((7 : ℕ) : ℤ) :=
  ⟨by decide, claim_C5_amended 7 (by decide) initSink⟩

/-- C6: `setVolume(p)` with `p` outside `[0, 100]` fails the `assert` and
leaves the whole state (including the stored gain) unchanged; with `p` in
range it succeeds and updates the stored gain, touching nothing else. -/
theorem claim_C6 (p : ℤ) (s : AudioSink) :
    (¬ (0 ≤ p ∧ p ≤ 100) → volumeSet p s = (some PyErr.assertionError, s)) ∧
    ((0 ≤ p ∧ p ≤ 100) → ∃ s', volumeSet p s = (none, s') ∧
      s'._volume = roundD ((p : ℚ) / 100) ∧ s'.queue = s.queue ∧ s'.stream = s.stream) := by
  constructor
  · intro h
    simp [volumeSet, h]
  · intro h
    exact ⟨{ s with _volume := roundD ((p : ℚ) / 100) }, by simp [volumeSet, h], rfl, rfl, rfl⟩

/-- Witness for C6: rejection at `p = 101`, success at `p = 50`. -/
theorem claim_C6_witness :
    volumeSet 101 initSink = (some PyErr.assertionError, initSink) ∧
    ∃ s', volumeSet 50 initSink = (none, s') ∧
      s'._volume = roundD ((50 : ℚ) / 100) ∧
      s'.queue = initSink.queue ∧ s'.stream = initSink.stream :=
  ⟨(claim_C6 101 initSink).1 (by decide), (claim_C6 50 initSink).2 (by decide)⟩

/-- C7: if the clip's rate differs from the canonical 16000 Hz and resampling
fails, `add` returns the state completely unchanged: nothing is queued, no
stream is opened, no error escapes. -/
theorem claim_C7 (re : SampleBuffer → ℕ → Option SampleBuffer) (rate : ℕ)
    (data : SampleBuffer) (owner : OwnerId) (s : AudioSink)
    (hrate : rate ≠ DEFAULT_SAMPLE_RATE) (hre : re data rate = none) :
    add re rate data s owner = s := by
  simp [add, hrate, hre]

/-- Witness for C7: a degenerate 8000 Hz clip on a fresh sink. -/
theorem claim_C7_witness :
    (8000 : ℕ) ≠ DEFAULT_SAMPLE_RATE ∧
    add (fun _ _ => none) 8000 [1, 2] initSink (some 5) = initSink :=
  ⟨by decide, claim_C7 (fun _ _ => none) 8000 [1, 2] (some 5) initSink (by decide) rfl⟩

/-- C4: the concrete scenario.  Owner 1 submits 100 samples of 1000, owner 2
submits 200 samples of 2000, `F = 100`, volume 100%.  First callback: 100
samples of 1500 (`1000 // 2 + 2000 // 2`), continue, owner 1 exhausted, owner
2 with 100 samples of 2000 left.  Second callback: 100 samples of 2000,
continue.  Third callback: zero samples, complete. -/
theorem claim_C4 :
    worker (add (fun _ _ => none) 16000 (List.replicate 200 2000)
        (add (fun _ _ => none) 16000 (List.replicate 100 1000) initSink (some 1)) (some 2)) 100
      = some (List.replicate 100 1500, Sig.paContinue,
          ⟨[(some 2, [List.replicate 100 2000])], 1, some true⟩) ∧
    worker ⟨[(some 2, [List.replicate 100 2000])], 1, some true⟩ 100
      = some (List.replicate 100 2000, Sig.paContinue, ⟨[], 1, some true⟩) ∧
    worker ⟨[], 1, some true⟩ 100 = some ([], Sig.paComplete, ⟨[], 1, some true⟩) := by
  refine ⟨?_, ?_, rfl⟩
  · have hS : add (fun _ _ => none) 16000 (List.replicate 200 2000)
        (add (fun _ _ => none) 16000 (List.replicate 100 1000) initSink (some 1)) (some 2)
        = ⟨[(some 1, [List.replicate 100 1000]), (some 2, [List.replicate 200 2000])],
            1, some true⟩ := rfl
    rw [hS, worker_some _ 100 (by simp) (by unfold WF; decide)]
    have h1 : (collect [(some 1, [List.replicate 100 (1000:ℤ)]),
        (some 2, [List.replicate 200 (2000:ℤ)])] 100).1
        = [List.replicate 100 (1000:ℤ), List.replicate 100 (2000:ℤ)] := by
      rw [collect_fst]
      simp [allSounds, chunkOf, List.take_replicate]
    have h2 : (collect [(some 1, [List.replicate 100 (1000:ℤ)]),
        (some 2, [List.replicate 200 (2000:ℤ)])] 100).2
        = [(some 2, [List.replicate 100 (2000:ℤ)])] := by
      rw [collect_snd]
      simp [nqOfQueue, nqEntry, nqStep, qappend, List.drop_replicate]
    rw [show (⟨[(some 1, [List.replicate 100 (1000:ℤ)]),
        (some 2, [List.replicate 200 (2000:ℤ)])], 1, some true⟩ : AudioSink).queue
      = [(some 1, [List.replicate 100 (1000:ℤ)]), (some 2, [List.replicate 200 (2000:ℤ)])]
      from rfl, h1, h2]
    refine congrArg _ (Prod.ext ?_ rfl)
    show (List.range 100).map
        (mixSample [List.replicate 100 (1000:ℤ), List.replicate 100 (2000:ℤ)] 2 1)
        = List.replicate 100 1500
    refine List.eq_replicate_iff.2 ⟨by simp, ?_⟩
    intro b hb
    obtain ⟨j, hj, rfl⟩ := List.mem_map.1 hb
    rw [List.mem_range] at hj
    have g1 : (List.replicate 100 (1000:ℤ)).getD j 0 = 1000 := by
      rw [List.getD_eq_getElem?_getD, List.getElem?_replicate]
      simp [hj]
    have g2 : (List.replicate 100 (2000:ℤ)).getD j 0 = 2000 := by
      rw [List.getD_eq_getElem?_getD, List.getElem?_replicate]
      simp [hj]
    simp only [mixSample, List.foldl_cons, List.foldl_nil, g1, g2]
    exact of_decide_eq_true (by with_unfolding_all rfl)
  · rw [worker_some _ 100 (by simp) (by unfold WF; decide)]
    have h1 : (collect [(some 2, [List.replicate 100 (2000:ℤ)])] 100).1
        = [List.replicate 100 (2000:ℤ)] := by
      rw [collect_fst]
      simp [allSounds, chunkOf, List.take_replicate]
    have h2 : (collect [(some 2, [List.replicate 100 (2000:ℤ)])] 100).2 = [] := by
      rw [collect_snd]
      simp [nqOfQueue, nqEntry, nqStep]
    rw [show (⟨[(some 2, [List.replicate 100 (2000:ℤ)])], 1, some true⟩ : AudioSink).queue
      = [(some 2, [List.replicate 100 (2000:ℤ)])] from rfl, h1, h2]
    refine congrArg _ (Prod.ext ?_ rfl)
    show (List.range 100).map
        (mixSample [List.replicate 100 (2000:ℤ)] 1 1)
        = List.replicate 100 2000
    refine List.eq_replicate_iff.2 ⟨by simp, ?_⟩
    intro b hb
    obtain ⟨j, hj, rfl⟩ := List.mem_map.1 hb
    rw [List.mem_range] at hj
    have g2 : (List.replicate 100 (2000:ℤ)).getD j 0 = 2000 := by
      rw [List.getD_eq_getElem?_getD, List.getElem?_replicate]
      simp [hj]
    simp only [mixSample, List.foldl_cons, List.foldl_nil, g2]
    exact of_decide_eq_true (by with_unfolding_all rfl)

/-- C1 counterexample: the callback does NOT consume only the head buffer of
an owner.  With owner 1 holding two queued clips `[4,4]` and `[8,8]` and
`F = 1`, the claim (as stated) predicts the second clip is untouched
(`[8,8]`) while the first is unfinished; in fact the callback consumes one
sample from EVERY buffer, leaving `[[4],[8]]` and mixing `4//2 + 8//2 = 6`
into the frame. -/
theorem claim_C1_counterexample :
    ¬ (∀ (s : AudioSink) (F : ℕ) (o : OwnerId) (b1 b2 : SampleBuffer)
        (rest : List SampleBuffer) (out : List ℤ) (s' : AudioSink),
        qlookup o s.queue = some (b1 :: b2 :: rest) → F < b1.length →
        worker s F = some (out, Sig.paContinue, s') →
        qlookup o s'.queue = some (b1.drop F :: b2 :: rest)) := by
  intro h
  have hw : worker ⟨[(some 1, [[4, 4], [8, 8]])], 1, none⟩ 1
      = some ([6], Sig.paContinue, ⟨[(some 1, [[4], [8]])], 1, none⟩) :=
    of_decide_eq_true (by with_unfolding_all rfl)
  have hc := h ⟨[(some 1, [[4, 4], [8, 8]])], 1, none⟩ 1 (some 1) [4, 4] [8, 8] []
    [6] ⟨[(some 1, [[4], [8]])], 1, none⟩ (by decide) (by decide) hw
  exact absurd hc (by decide)

/-- C1 amended: one callback consumes up to `F` samples from EVERY buffer of
every owner (later clips of the same owner play concurrently with earlier
ones, not after them): afterwards an owner's entry holds exactly the tails
(`drop F`) of those of its buffers longer than `F`, in order, and the owner
is pruned when none remain. -/
theorem claim_C1_amended (s : AudioSink) (F : ℕ) (o : OwnerId)
    (bufs : List SampleBuffer) (hnd : NodupKeys s.queue) (hwf : WF s.queue)
    (hlk : qlookup o s.queue = some bufs) :
    ∃ out s', worker s F = some (out, Sig.paContinue, s') ∧
      qlookup o s'.queue =
        (if remAfter F bufs = [] then none else some (remAfter F bufs)) := by
  have hq : s.queue ≠ [] := by
    intro h
    rw [h] at hlk
    simp [qlookup] at hlk
  refine ⟨_, _, worker_some s F hq hwf, ?_⟩
  show qlookup o (collect s.queue F).2 = _
  rw [collect_snd]
  exact qlookup_nqOfQueue F o bufs s.queue hnd hlk

/-- Witness for C1 amended: owner 1 with clips `[4,4]` and `[8,8]`, `F = 1`:
both buffers shrink to their tails in the rebuilt queue. -/
theorem claim_C1_witness :
    ∃ out s', worker ⟨[(some 1, [[4, 4], [8, 8]])], 1, none⟩ 1
        = some (out, Sig.paContinue, s') ∧
      qlookup (some 1) s'.queue =
        (if remAfter 1 [[4, 4], [8, 8]] = [] then none
         else some (remAfter 1 [[4, 4], [8, 8]])) :=
  claim_C1_amended ⟨[(some 1, [[4, 4], [8, 8]])], 1, none⟩ 1 (some 1)
    [[4, 4], [8, 8]] (by unfold NodupKeys; decide) (by unfold WF; decide) (by decide)

/-- C2 counterexample: the mixed sample is NOT `clamp(((sum of chunks) //
count) * gain)`.  With two owners each holding one clip `[1]`, `F = 1` and
gain 1, the code divides each chunk first (`1 // 2 + 1 // 2 = 0`) while the
claim's formula gives `(1 + 1) // 2 = 1`. -/
theorem claim_C2_counterexample :
    ¬ (∀ (s : AudioSink) (F : ℕ) (out : List ℤ) (s' : AudioSink) (j : ℕ),
        worker s F = some (out, Sig.paContinue, s') → j < F →
        out.getD j 0 = clamp16 (qtrunc (roundD
          (((((collect s.queue F).1.map (fun (c : SampleBuffer) => c.getD j 0)).sum.fdiv
              ((collect s.queue F).1.length : ℤ) : ℤ) : ℚ) * s._volume)))) := by
  intro h
  have hw : worker ⟨[(some 1, [[1]]), (some 2, [[1]])], 1, none⟩ 1
      = some ([0], Sig.paContinue, ⟨[], 1, none⟩) :=
    of_decide_eq_true (by with_unfolding_all rfl)
  have hc := h ⟨[(some 1, [[1]]), (some 2, [[1]])], 1, none⟩ 1 [0] ⟨[], 1, none⟩ 0
    hw (by decide)
  exact absurd hc (of_decide_eq_true (by with_unfolding_all rfl))

/-- C2 amended: each output sample is the int16-wrapped sum over the chunks
of `int16_cast((chunk[j] // chunk_count) * gain)`: the integer division by
the chunk count is applied to each chunk BEFORE summation (per-chunk, not to
the sum), the gain multiplication is a binary64 product, and out-of-range
values wrap modulo 2^16 (numpy int16 cast/summation), they are not clamped. -/
theorem claim_C2_amended (s : AudioSink) (F j : ℕ) (hwf : WF s.queue)
    (hne : s.queue ≠ []) (hj : j < F) :
    ∃ out s', worker s F = some (out, Sig.paContinue, s') ∧
      out.getD j 0 = wrap16 ((((allSounds s.queue).map (chunkOf F)).map
        (fun c => i16cast (roundD ((((c.getD j 0).fdiv
          ((allSounds s.queue).length : ℤ) : ℤ) : ℚ) * s._volume)))).sum) := by
  refine ⟨_, _, worker_some s F hne hwf, ?_⟩
  rw [getD_range_map _ F j hj, mixSample_eq, collect_fst, List.length_map]

/-- Witness for C2 amended: two owners with one clip `[1]` each, `F = 1`,
gain 1, sample index 0. -/
theorem claim_C2_witness :
    ∃ out s', worker ⟨[(some 1, [[1]]), (some 2, [[1]])], 1, none⟩ 1
        = some (out, Sig.paContinue, s') ∧
      out.getD 0 0 = wrap16 ((((allSounds [(some 1, [[1]]), (some 2, [[1]])]).map
        (chunkOf 1)).map (fun (c : SampleBuffer) => i16cast (roundD ((((c.getD 0 0).fdiv
          ((allSounds [(some 1, [[1]]), (some 2, [[1]])]).length : ℤ) : ℤ) : ℚ)
          * (1 : ℚ))))).sum) :=
  claim_C2_amended ⟨[(some 1, [[1]]), (some 2, [[1]])], 1, none⟩ 1 0
    (by unfold WF; decide) (by decide) (by decide)

/-- C8: with `F ≥ 1` and a non-empty well-formed table, every captured chunk
has length exactly `F` (short buffers are zero-padded), and the callback
returns exactly `F` samples together with the continue flag. -/
theorem claim_C8 (s : AudioSink) (F : ℕ) (_hF : 1 ≤ F) (hwf : WF s.queue)
    (hne : s.queue ≠ []) :
    (∀ c ∈ (collect s.queue F).1, c.length = F) ∧
    ∃ out s', worker s F = some (out, Sig.paContinue, s') ∧ out.length = F := by
  constructor
  · intro c hc
    rw [collect_fst] at hc
    obtain ⟨a, -, rfl⟩ := List.mem_map.1 hc
    exact chunkOf_length F a
  · exact ⟨_, _, worker_some s F hne hwf, by simp⟩

/-- Witness for C8: one owner with the 1-sample clip `[5]`, `F = 2`. -/
theorem claim_C8_witness :
    (∀ c ∈ (collect [(some 1, [[5]])] 2).1, c.length = 2) ∧
    ∃ out s', worker ⟨[(some 1, [[5]])], 1, none⟩ 2 = some (out, Sig.paContinue, s') ∧
      out.length = 2 :=
  claim_C8 ⟨[(some 1, [[5]])], 1, none⟩ 2 (by decide) (by unfold WF; decide) (by decide)

/-- C9: the StreamTable invariant — every present owner maps to a non-empty
buffer sequence — is preserved by `add`, by a successful `remove`, and by one
callback invocation (whose rebuilt queue re-inserts only owners with
remaining data, so exhausted owners are pruned, never left empty). -/
theorem claim_C9 (s : AudioSink) (re : SampleBuffer → ℕ → Option SampleBuffer)
    (rate : ℕ) (data : SampleBuffer) (owner o : OwnerId) (F : ℕ)
    (hwf : WF s.queue) :
    WF ((add re rate data s owner).queue) ∧
    (∀ s', remove o s = Except.ok s' → WF s'.queue) ∧
    (∀ out sg s', worker s F = some (out, sg, s') → WF s'.queue) := by
  refine ⟨?_, ?_, ?_⟩
  · unfold add
    cases hd : (if rate ≠ DEFAULT_SAMPLE_RATE then re data rate else some data) with
    | none => exact hwf
    | some d =>
      simp only []
      split <;> split <;> exact WF_qappend owner d s.queue hwf
  · intro s' hr
    unfold remove at hr
    split at hr
    · next hk =>
      simp only [Except.ok.injEq] at hr
      rw [← hr]
      exact WF_qerase o s.queue hwf
    · next hk =>
      simp at hr
  · intro out sg s' hw
    by_cases hqe : s.queue = []
    · rw [show worker s F = some ([], Sig.paComplete, s) from by simp [worker, hqe]] at hw
      simp only [Option.some.injEq, Prod.mk.injEq] at hw
      rw [← hw.2.2]
      exact hwf
    · by_cases hlen : (collect s.queue F).1.length = 0
      · rw [show worker s F = none from by simp [worker, hqe, hlen]] at hw
        exact absurd hw (by simp)
      · rw [show worker s F = some ((List.range F).map (mixSample (collect s.queue F).1
          (collect s.queue F).1.length s._volume), Sig.paContinue,
          { s with queue := (collect s.queue F).2 }) from by simp [worker, hqe, hlen]] at hw
        simp only [Option.some.injEq, Prod.mk.injEq] at hw
        rw [← hw.2.2]
        show WF (collect s.queue F).2
        rw [collect_snd]
        exact WF_nqOfQueue F s.queue

/-- Witness for C9: a sink holding owner 1's clip `[1,2]`; add `[3]` under the
default owner, remove owner 1, and run one callback with `F = 1`. -/
theorem claim_C9_witness :
    WF ((add (fun _ _ => none) 16000 [3] ⟨[(some 1, [[1, 2]])], 1, some true⟩ none).queue) ∧
    WF (AudioSink.mk [] 1 (some true)).queue ∧
    WF (AudioSink.mk [(some 1, [[2]])] 1 (some true)).queue := by
  have h := claim_C9 ⟨[(some 1, [[1, 2]])], 1, some true⟩ (fun _ _ => none) 16000 [3]
    none (some 1) 1 (by unfold WF; decide)
  refine ⟨h.1, h.2.1 ⟨[], 1, some true⟩ rfl, h.2.2 [1] Sig.paContinue
    ⟨[(some 1, [[2]])], 1, some true⟩ ?_⟩
  exact of_decide_eq_true (by with_unfolding_all rfl)

/-- C10: the `owner` argument of `add` is optional and defaults to the shared
key `None`: clips submitted without an owner all land, in order, in the one
`None` entry; a single `remove` of that default owner then deletes the whole
entry at once, leaving every other owner's entry untouched. -/
theorem claim_C10 (s : AudioSink) (re : SampleBuffer → ℕ → Option SampleBuffer)
    (d1 d2 : SampleBuffer) (hnd : NodupKeys s.queue) :
    qlookup none (add re DEFAULT_SAMPLE_RATE d2 (add re DEFAULT_SAMPLE_RATE d1 s)).queue
      = some ((qlookup none s.queue).getD [] ++ [d1, d2]) ∧
    (∀ s3, remove none (add re DEFAULT_SAMPLE_RATE d2 (add re DEFAULT_SAMPLE_RATE d1 s))
        = Except.ok s3 →
      qlookup none s3.queue = none ∧
      ∀ o, o ≠ none → qlookup o s3.queue
        = qlookup o (add re DEFAULT_SAMPLE_RATE d2 (add re DEFAULT_SAMPLE_RATE d1 s)).queue) := by
  have hq2 : (add re DEFAULT_SAMPLE_RATE d2 (add re DEFAULT_SAMPLE_RATE d1 s)).queue
      = qappend none d2 (qappend none d1 s.queue) := by
    rw [add_queue, add_queue]
  constructor
  · rw [hq2, qlookup_qappend_self, qlookup_qappend_self]
    cases qlookup none s.queue <;> simp
  · intro s3 hr
    have hnd2 : NodupKeys ((add re DEFAULT_SAMPLE_RATE d2
        (add re DEFAULT_SAMPLE_RATE d1 s)).queue) := by
      rw [hq2]
      exact NodupKeys_qappend _ _ _ (NodupKeys_qappend _ _ _ hnd)
    unfold remove at hr
    split at hr
    · next hk =>
      simp only [Except.ok.injEq] at hr
      rw [← hr]
      constructor
      · exact qlookup_qerase_self none _ hnd2
      · intro o ho
        exact qlookup_qerase_ne none o _ ho
    · next hk =>
      simp at hr

/-- Witness for C10: two anonymous clips `[1]`, `[2]` into a sink that also
holds owner 7's clip `[9]`; cancelling the default owner evicts both while
owner 7 keeps its entry. -/
theorem claim_C10_witness :
    (qlookup none (add (fun _ _ => none) DEFAULT_SAMPLE_RATE [2]
        (add (fun _ _ => none) DEFAULT_SAMPLE_RATE [1] ⟨[(some 7, [[9]])], 1, none⟩)).queue
      = some ((qlookup none ([(some 7, [[9]])] : StreamTable)).getD [] ++ [[1], [2]])) ∧
    qlookup none (AudioSink.mk [(some 7, [[9]])] 1 (some true)).queue = none ∧
    qlookup (some 7) (AudioSink.mk [(some 7, [[9]])] 1 (some true)).queue
      = qlookup (some 7) (add (fun _ _ => none) DEFAULT_SAMPLE_RATE [2]
        (add (fun _ _ => none) DEFAULT_SAMPLE_RATE [1] ⟨[(some 7, [[9]])], 1, none⟩)).queue := by
  have h := claim_C10 ⟨[(some 7, [[9]])], 1, none⟩ (fun _ _ => none) [1] [2]
    (by unfold NodupKeys; decide)
  have h2 := h.2 ⟨[(some 7, [[9]])], 1, some true⟩ rfl
  exact ⟨h.1, h2.1, h2.2 (some 7) (by decide)⟩
